import Mathlib

/-!
Shallow embedding of the cmpm-121 coin-game core:
`src/coinCache.ts` (the `CoinCache` class with its memento serialization)
and `src/main.ts` (memento store, cache generator, collect/deposit
handlers, save/reset).  Machine numbers that stay integral are modelled
as `Nat`/`Int`; continuous map positions as `ℚ`.  JavaScript string
serialization (`JSON.stringify`/`JSON.parse`) is modelled at the level
of JSON values via the `JsonVal` inductive: a momento string is
represented by the JSON value it denotes.
-/

/-- `Vector2` from `src/types.ts`: an integer grid-cell coordinate pair
(all positions fed to the cache layer are cell coordinates). -/
structure Vector2 where
  x : Int
  y : Int
deriving DecidableEq, Repr

/-- `Coin` from `src/types.ts`: origin cell plus per-cache sequence number. -/
structure Coin where
  origin : Vector2
  coin_number : Nat
deriving DecidableEq, Repr

/-- The `CoinCache` class state from `src/coinCache.ts`. -/
structure CoinCache where
  inventory : List Coin
  last_coin : Nat
  mints_remaining : Nat
  position : Vector2
deriving DecidableEq, Repr

namespace CoinCache

/-- The `CoinCache` constructor: empty inventory, `last_coin = 0`,
`mints_remaining = totalMints`, the given position. -/
def new (totalMints : Nat) (position : Vector2) : CoinCache :=
  { inventory := [], last_coin := 0, mints_remaining := totalMints,
    position := position }

/-- `leaveCoin(coin)`: `this.inventory.push(coin)` — append at the end. -/
def leaveCoin (c : CoinCache) (coin : Coin) : CoinCache :=
  { c with inventory := c.inventory ++ [coin] }

/-- `takeCoin()`: if the inventory is non-empty, pop and return its last
element; else if `mints_remaining > 0`, decrement it and mint a coin
numbered `last_coin++`; else return `undefined` (modelled `none`). -/
def takeCoin (c : CoinCache) : Option Coin × CoinCache :=
  match c.inventory.getLast? with
  | some coin => (some coin, { c with inventory := c.inventory.dropLast })
  | none =>
    if 0 < c.mints_remaining then
      (some { origin := c.position, coin_number := c.last_coin },
       { c with mints_remaining := c.mints_remaining - 1,
                last_coin := c.last_coin + 1 })
    else
      (none, c)

end CoinCache

/-- The cell key `` `${position.x},${position.y}` `` used by
`getOrCreateCache` and the handlers in `src/main.ts`. -/
def posKeyOf (v : Vector2) : String :=
  toString v.x ++ "," ++ toString v.y

/-- JSON values, the codomain of `JSON.parse`.  A momento string is
modelled by the JSON value it denotes (all numbers occurring in a
`CoinCache` are integral). -/
inductive JsonVal where
  | num : Int → JsonVal
  | arr : List JsonVal → JsonVal
  | obj : List (String × JsonVal) → JsonVal

namespace JsonVal

/-- JavaScript property lookup `parsed.field` on a parsed JSON object. -/
def getField (j : JsonVal) (k : String) : Option JsonVal :=
  match j with
  | obj fields => (fields.find? (fun e => e.1 = k)).map (·.2)
  | _ => none

end JsonVal

/-- `JSON.stringify` of a `Vector2`, at JSON-value level. -/
def Vector2.toJson (v : Vector2) : JsonVal :=
  .obj [("x", .num v.x), ("y", .num v.y)]

/-- `JSON.parse` result of a serialized `Vector2`. -/
def Vector2.ofJson (j : JsonVal) : Option Vector2 :=
  match j.getField "x", j.getField "y" with
  | some (.num x), some (.num y) => some ⟨x, y⟩
  | _, _ => none

/-- `JSON.stringify` of a `Coin`, at JSON-value level. -/
def Coin.toJson (c : Coin) : JsonVal :=
  .obj [("origin", c.origin.toJson), ("coin_number", .num c.coin_number)]

/-- `JSON.parse` result of a serialized `Coin`. -/
def Coin.ofJson (j : JsonVal) : Option Coin :=
  match j.getField "origin", j.getField "coin_number" with
  | some o, some (.num (.ofNat n)) =>
    (Vector2.ofJson o).map (fun v => ⟨v, n⟩)
  | _, _ => none

/-- Decode each element of a parsed JSON array as a `Coin`. -/
def decodeCoinList : List JsonVal → Option (List Coin)
  | [] => some []
  | j :: rest =>
    match Coin.ofJson j, decodeCoinList rest with
    | some c, some cs => some (c :: cs)
    | _, _ => none

/-- Decode a JSON array of coins (the serialized inventory). -/
def decodeCoins (j : JsonVal) : Option (List Coin) :=
  match j with
  | .arr items => decodeCoinList items
  | _ => none

namespace CoinCache

/-- `toMomento(): string` is `JSON.stringify(this)`: an object with the
four own properties in declaration order, modelled at JSON-value level. -/
def toMomento (c : CoinCache) : JsonVal :=
  .obj [("inventory", .arr (c.inventory.map Coin.toJson)),
        ("last_coin", .num c.last_coin),
        ("mints_remaining", .num c.mints_remaining),
        ("position", c.position.toJson)]

/-- `fromMomento(momento)`: `JSON.parse` it and overwrite the four fields
from the parsed object.  All four fields are overwritten, so the result
does not depend on the prior state; a field that is absent or of the
wrong shape yields `none` (in JS it would leave `undefined` garbage). -/
def fromMomento (m : JsonVal) : Option CoinCache :=
  match m.getField "inventory", m.getField "last_coin",
        m.getField "mints_remaining", m.getField "position" with
  | some inv, some (.num (.ofNat lc)), some (.num (.ofNat mr)), some pos =>
    match decodeCoins inv, Vector2.ofJson pos with
    | some coins, some p =>
      some { inventory := coins, last_coin := lc, mints_remaining := mr,
             position := p }
    | _, _ => none
  | _, _, _, _ => none

end CoinCache

/-- The momento store `momentos : Map<string, string>` of `src/main.ts`,
as an association list in insertion order (JS `Map` preserves it). -/
def Store := List (String × JsonVal)

/-- `momentos.get(key)` (also deciding `momentos.has(key)`). -/
def storeGet (s : Store) (k : String) : Option JsonVal :=
  match s with
  | [] => none
  | (k', v) :: rest => if k' = k then some v else storeGet rest k

/-- `momentos.set(key, value)`: overwrite in place if present, else append. -/
def storeSet (s : Store) (k : String) (v : JsonVal) : Store :=
  match s with
  | [] => [(k, v)]
  | (k', v') :: rest =>
    if k' = k then (k, v) :: rest else (k', v') :: storeSet rest k v

/-- Modelled from the spec: `luck.ts` is imported by `src/main.ts` but is
not among the provided sources.  Per spec §4.1 it is a pure, stateless
deterministic hash from a string key to a value in `[0,1)`; we model it
as an arbitrary function `String → ℚ`, adding the range as a hypothesis
where a claim depends on it. -/
def LuckFn := String → ℚ

/-- `getOrCreateCache(position)` from `src/main.ts`: if the store has no
momento under the cell key, seed a new `CoinCache` with
`mints_remaining = Math.floor(luck(posKey) * 100)` and store its
momento; then return a fresh `CoinCache` deserialized from the stored
momento (`none` only if the stored momento fails to decode). -/
def getOrCreateCache (luck : LuckFn) (store : Store) (position : Vector2) :
    Option CoinCache × Store :=
  let posKey := posKeyOf position
  let store' :=
    if (storeGet store posKey).isSome then store
    else
      storeSet store posKey
        (CoinCache.toMomento
          (CoinCache.new (Int.toNat ⌊luck posKey * 100⌋) position))
  match storeGet store' posKey with
  | some m => (CoinCache.fromMomento m, store')
  | none => (none, store')

/-- `TILE_DEGREES = 1e-4` from `src/main.ts`. -/
def TILE_DEGREES : ℚ := 1 / 10000

/-- `NEIGHBORHOOD_SIZE = 8` from `src/main.ts`. -/
def NEIGHBORHOOD_SIZE : Int := 8

/-- `CACHE_SPAWN_PROBABILITY = 0.1` from `src/main.ts`. -/
def CACHE_SPAWN_PROBABILITY : ℚ := 1 / 10

/-- `toMapCoordinates(position)`: componentwise
`Math.floor(position / TILE_DEGREES)`. -/
def toMapCoordinates (position : ℚ × ℚ) : Vector2 :=
  ⟨⌊position.1 / TILE_DEGREES⌋, ⌊position.2 / TILE_DEGREES⌋⟩

/-- The index range of each `for` loop in
`mapData.generateAroundPlayer`: from `c - NEIGHBORHOOD_SIZE` up to but
excluding `c + NEIGHBORHOOD_SIZE`. -/
def cellRange (c : Int) : List Int :=
  (List.range (2 * NEIGHBORHOOD_SIZE).toNat).map
    (fun i : Nat => c - NEIGHBORHOOD_SIZE + (i : Int))

/-- The spawn sites selected by the nested loops of
`mapData.generateAroundPlayer`: cells `(x, y)` of the neighborhood with
`luck(`x,y`) < CACHE_SPAWN_PROBABILITY`, in loop order. -/
def spawnSites (luck : LuckFn) (position : ℚ × ℚ) : List Vector2 :=
  let playerMapPos := toMapCoordinates position
  (cellRange playerMapPos.x).flatMap (fun x =>
    (cellRange playerMapPos.y).filterMap (fun y =>
      if luck (posKeyOf ⟨x, y⟩) < CACHE_SPAWN_PROBABILITY then
        some ⟨x, y⟩
      else none))

/-- `mapData.generateAroundPlayer(position)`: computes the spawn sites
and, for each, `spawnCoinCache` → `createPopup` → `getOrCreateCache`,
which seeds the momento store for cells not yet present.  Returns the
sites together with the updated store (the layer-group rendering is UI
state outside the model). -/
def generateAroundPlayer (luck : LuckFn) (store : Store)
    (position : ℚ × ℚ) : List Vector2 × Store :=
  let sites := spawnSites luck position
  (sites, sites.foldl (fun st v => (getOrCreateCache luck st v).2) store)

/-- The four `localStorage` entries written by `saveGame` /
read by `loadGame`, at JSON-value level; `none` means the entry is
absent (as after `localStorage.clear()`). -/
structure Storage where
  momentos : Option (List (String × JsonVal))
  playerCoins : Option (List Coin)
  playerPath : Option (List (ℚ × ℚ))
  playerLocation : Option (ℚ × ℚ)

/-- Empty persistent storage, the result of `localStorage.clear()`. -/
def Storage.empty : Storage :=
  { momentos := none, playerCoins := none, playerPath := none,
    playerLocation := none }

/-- The mutable game state of `src/main.ts` relevant to the claims:
the player inventory `playerCoins`, the momento store `momentos`, the
player path and location (held by the leaflet layer), and the persisted
`localStorage` contents. -/
structure GameState where
  playerCoins : List Coin
  momentos : Store
  playerPath : List (ℚ × ℚ)
  playerLocation : ℚ × ℚ
  storage : Storage

/-- `saveGame()`: writes the momento store entries, the player coins,
the player path and the player location to `localStorage`. -/
def saveGame (g : GameState) : GameState :=
  { g with storage :=
      { momentos := some g.momentos, playerCoins := some g.playerCoins,
        playerPath := some g.playerPath,
        playerLocation := some g.playerLocation } }

/-- `handleDeposit(coinCache, ...)`: if the player holds coins, pop the
most recently collected one, `leaveCoin` it into the cache, write the
cache's momento back under its cell key, and `saveGame()`; otherwise do
nothing.  Returns the updated game state and cache view. -/
def handleDeposit (g : GameState) (c : CoinCache) : GameState × CoinCache :=
  match g.playerCoins.getLast? with
  | none => (g, c)
  | some coin =>
    let c' := c.leaveCoin coin
    let g' :=
      { g with playerCoins := g.playerCoins.dropLast,
               momentos := storeSet g.momentos (posKeyOf c'.position)
                 (CoinCache.toMomento c') }
    (saveGame g', c')

/-- `handleCollect(coinCache, ...)`: `takeCoin()`; if a coin came back,
push it onto the player inventory, write the cache's momento back under
its cell key, and `saveGame()`; otherwise do nothing. -/
def handleCollect (g : GameState) (c : CoinCache) :
    GameState × CoinCache × Option Coin :=
  match CoinCache.takeCoin c with
  | (none, _) => (g, c, none)
  | (some coin, c') =>
    let g' :=
      { g with playerCoins := g.playerCoins ++ [coin],
               momentos := storeSet g.momentos (posKeyOf c'.position)
                 (CoinCache.toMomento c') }
    (saveGame g', c', some coin)

/-- `resetGame()`: asks for confirmation (`confirm(...)`, an external
boolean input); if declined, returns immediately; if confirmed,
`localStorage.clear()` empties persistent storage (the subsequent
`location.reload()` restarts the session and is outside the model). -/
def resetGame (confirmed : Bool) (g : GameState) : GameState :=
  if confirmed then { g with storage := Storage.empty } else g

/-- A single cache-entity operation, for stating invariants over
arbitrary operation sequences on a `CoinCache`. -/
inductive CacheOp where
  | leave : Coin → CacheOp
  | take : CacheOp

/-- State effect of one `CacheOp` on a cache. -/
def applyOp (c : CoinCache) : CacheOp → CoinCache
  | .leave coin => c.leaveCoin coin
  | .take => (CoinCache.takeCoin c).2

/-- Run a sequence of cache operations. -/
def runOps (c : CoinCache) (ops : List CacheOp) : CoinCache :=
  ops.foldl applyOp c

/-- Number of coins minted by one operation: 1 exactly when a `takeCoin`
finds the inventory empty and `mints_remaining > 0`. -/
def mintStep (c : CoinCache) : CacheOp → Nat
  | .leave _ => 0
  | .take => if c.inventory = [] ∧ 0 < c.mints_remaining then 1 else 0

/-- Total number of coins minted over a sequence of operations. -/
def mintedCount : CoinCache → List CacheOp → Nat
  | _, [] => 0
  | c, op :: rest => mintStep c op + mintedCount (applyOp c op) rest

/-- A concrete sample luck function (value 1/20 everywhere), used to
evaluate the store and generator on closed inputs. -/
def luckW : LuckFn := fun _ => 1 / 20

/-- A concrete sample coin. -/
def coinW : Coin := ⟨⟨5, 5⟩, 0⟩

/-- A second concrete sample coin. -/
def coinW2 : Coin := ⟨⟨5, 5⟩, 1⟩

/-- A concrete sample cache holding one coin. -/
def cacheW : CoinCache := ⟨[coinW], 1, 2, ⟨5, 5⟩⟩

/-- A concrete sample cache with empty inventory and mints left. -/
def cacheW2 : CoinCache := ⟨[], 2, 5, ⟨0, 0⟩⟩

/-- A concrete sample game state whose player holds one coin. -/
def gameW : GameState := ⟨[coinW2], [], [], (0, 0), Storage.empty⟩

/-- A concrete sample game state whose player holds nothing. -/
def gameW2 : GameState := ⟨[], [], [], (0, 0), Storage.empty⟩

/-- A concrete sample operation sequence. -/
def opsW : List CacheOp := [.take, .leave ⟨⟨0, 0⟩, 9⟩, .take, .take]

/-! ### Helper lemmas -/

lemma vec_ofJson_toJson (v : Vector2) :
    Vector2.ofJson (Vector2.toJson v) = some v := rfl

lemma coin_ofJson_toJson (c : Coin) :
    Coin.ofJson (Coin.toJson c) = some c := rfl

lemma decodeCoinList_map_toJson (l : List Coin) :
    decodeCoinList (l.map Coin.toJson) = some l := by
  induction l with
  | nil => rfl
  | cons a t ih =>
    simp only [decodeCoinList, List.map_cons, coin_ofJson_toJson, ih]

lemma decodeCoins_map_toJson (l : List Coin) :
    decodeCoins (.arr (l.map Coin.toJson)) = some l := by
  simp [decodeCoins, decodeCoinList_map_toJson]

lemma fromMomento_toMomento (c : CoinCache) :
    CoinCache.fromMomento (CoinCache.toMomento c) = some c := by
  obtain ⟨inv, lc, mr, pos⟩ := c
  have hinv := decodeCoinList_map_toJson inv
  simp [CoinCache.fromMomento, CoinCache.toMomento, JsonVal.getField,
    decodeCoins, hinv, vec_ofJson_toJson]

lemma storeGet_set_self (s : Store) (k : String) (v : JsonVal) :
    storeGet (storeSet s k v) k = some v := by
  induction s with
  | nil => simp [storeSet, storeGet]
  | cons e rest ih =>
    by_cases h : e.1 = k
    · simp [storeSet, storeGet, h]
    · simp [storeSet, storeGet, h, ih]

lemma storeGet_set_ne (s : Store) (k k' : String) (v : JsonVal)
    (h : k ≠ k') : storeGet (storeSet s k v) k' = storeGet s k' := by
  induction s with
  | nil => simp [storeSet, storeGet, h]
  | cons e rest ih =>
    by_cases he : e.1 = k
    · simp [storeSet, storeGet, he, h]
    · simp [storeSet, storeGet, he, ih]

lemma takeCoin_concat (c : CoinCache) (l : List Coin) (a : Coin)
    (h : c.inventory = l ++ [a]) :
    CoinCache.takeCoin c = (some a, { c with inventory := l }) := by
  simp [CoinCache.takeCoin, h]

lemma takeCoin_mint (c : CoinCache) (h : c.inventory = [])
    (hm : 0 < c.mints_remaining) :
    CoinCache.takeCoin c =
      (some ⟨c.position, c.last_coin⟩,
       { c with mints_remaining := c.mints_remaining - 1,
                last_coin := c.last_coin + 1 }) := by
  simp [CoinCache.takeCoin, h, hm]

lemma takeCoin_exhausted (c : CoinCache) (h : c.inventory = [])
    (hm : c.mints_remaining = 0) :
    CoinCache.takeCoin c = (none, c) := by
  simp [CoinCache.takeCoin, h, hm]

lemma getOrCreateCache_present (luck : LuckFn) (s : Store) (p : Vector2)
    (m : JsonVal) (h : storeGet s (posKeyOf p) = some m) :
    getOrCreateCache luck s p = (CoinCache.fromMomento m, s) := by
  simp [getOrCreateCache, h]

lemma getOrCreateCache_absent (luck : LuckFn) (s : Store) (p : Vector2)
    (h : storeGet s (posKeyOf p) = none) :
    getOrCreateCache luck s p =
      (some (CoinCache.new (Int.toNat ⌊luck (posKeyOf p) * 100⌋) p),
       storeSet s (posKeyOf p)
         (CoinCache.toMomento
           (CoinCache.new (Int.toNat ⌊luck (posKeyOf p) * 100⌋) p))) := by
  simp [getOrCreateCache, h, storeGet_set_self, fromMomento_toMomento]

lemma applyOp_mints_le (c : CoinCache) (op : CacheOp) :
    (applyOp c op).mints_remaining ≤ c.mints_remaining := by
  cases op with
  | leave coin => simp [applyOp, CoinCache.leaveCoin]
  | take =>
    simp only [applyOp, CoinCache.takeCoin]
    cases h : c.inventory.getLast? with
    | some coin => simp
    | none =>
      by_cases hm : 0 < c.mints_remaining <;> simp [hm]

lemma applyOp_last_le (c : CoinCache) (op : CacheOp) :
    c.last_coin ≤ (applyOp c op).last_coin := by
  cases op with
  | leave coin => simp [applyOp, CoinCache.leaveCoin]
  | take =>
    simp only [applyOp, CoinCache.takeCoin]
    cases h : c.inventory.getLast? with
    | some coin => simp
    | none =>
      by_cases hm : 0 < c.mints_remaining <;> simp [hm]

lemma runOps_mints_le (c : CoinCache) (ops : List CacheOp) :
    (runOps c ops).mints_remaining ≤ c.mints_remaining := by
  induction ops generalizing c with
  | nil => simp [runOps]
  | cons op rest ih =>
    calc (runOps c (op :: rest)).mints_remaining
        = (runOps (applyOp c op) rest).mints_remaining := rfl
      _ ≤ (applyOp c op).mints_remaining := ih _
      _ ≤ c.mints_remaining := applyOp_mints_le c op

lemma runOps_last_le (c : CoinCache) (ops : List CacheOp) :
    c.last_coin ≤ (runOps c ops).last_coin := by
  induction ops generalizing c with
  | nil => simp [runOps]
  | cons op rest ih =>
    calc c.last_coin ≤ (applyOp c op).last_coin := applyOp_last_le c op
      _ ≤ (runOps (applyOp c op) rest).last_coin := ih _
      _ = (runOps c (op :: rest)).last_coin := rfl

lemma mintStep_add_mints (c : CoinCache) (op : CacheOp) :
    mintStep c op + (applyOp c op).mints_remaining = c.mints_remaining := by
  cases op with
  | leave coin => simp [mintStep, applyOp, CoinCache.leaveCoin]
  | take =>
    simp only [mintStep, applyOp, CoinCache.takeCoin]
    cases h : c.inventory.getLast? with
    | some coin =>
      have hne : ¬(c.inventory = [] ∧ 0 < c.mints_remaining) := by
        rintro ⟨hnil, -⟩
        rw [hnil] at h
        simp at h
      simp [hne]
    | none =>
      have hemp : c.inventory = [] := by
        cases hi : c.inventory with
        | nil => rfl
        | cons a t => rw [hi] at h; simp at h
      by_cases hm : 0 < c.mints_remaining
      · simp [hm, hemp]
        omega
      · simp [hm, hemp]

lemma mintedCount_add_mints (c : CoinCache) (ops : List CacheOp) :
    mintedCount c ops + (runOps c ops).mints_remaining = c.mints_remaining := by
  induction ops generalizing c with
  | nil => simp [mintedCount, runOps]
  | cons op rest ih =>
    have h1 := mintStep_add_mints c op
    have h2 := ih (applyOp c op)
    have e1 : mintedCount c (op :: rest)
        = mintStep c op + mintedCount (applyOp c op) rest := rfl
    have e2 : runOps c (op :: rest) = runOps (applyOp c op) rest := rfl
    rw [e1, e2]
    omega

lemma runOps_replicate_take (c : CoinCache) (N : Nat)
    (hinv : c.inventory = []) (hN : N ≤ c.mints_remaining) :
    runOps c (List.replicate N .take) =
      { c with mints_remaining := c.mints_remaining - N,
               last_coin := c.last_coin + N } := by
  induction N generalizing c with
  | zero => simp [runOps]
  | succ n ih =>
    have hm : 0 < c.mints_remaining := by omega
    have hstep : applyOp c .take =
        { c with mints_remaining := c.mints_remaining - 1,
                 last_coin := c.last_coin + 1 } := by
      simp [applyOp, takeCoin_mint c hinv hm]
    have hrep : runOps c (List.replicate (n + 1) .take)
        = runOps (applyOp c .take) (List.replicate n .take) := by
      simp [runOps, List.replicate]
    rw [hrep, hstep, ih _ (by simp [hinv]) (by simp; omega)]
    have hmints : c.mints_remaining - 1 - n = c.mints_remaining - (n + 1) := by
      omega
    have hlast : c.last_coin + 1 + n = c.last_coin + (n + 1) := by omega
    simp [hmints, hlast]

lemma mem_cellRange (c a : Int) :
    a ∈ cellRange c ↔ c - NEIGHBORHOOD_SIZE ≤ a ∧ a < c + NEIGHBORHOOD_SIZE := by
  simp only [cellRange, List.mem_map, List.mem_range, NEIGHBORHOOD_SIZE]
  constructor
  · rintro ⟨i, hi, rfl⟩
    omega
  · intro h
    refine ⟨(a - (c - 8)).toNat, by omega, by omega⟩

lemma mem_spawnSites (luck : LuckFn) (position : ℚ × ℚ) (v : Vector2) :
    v ∈ spawnSites luck position ↔
      ((toMapCoordinates position).x - NEIGHBORHOOD_SIZE ≤ v.x ∧
       v.x < (toMapCoordinates position).x + NEIGHBORHOOD_SIZE ∧
       (toMapCoordinates position).y - NEIGHBORHOOD_SIZE ≤ v.y ∧
       v.y < (toMapCoordinates position).y + NEIGHBORHOOD_SIZE) ∧
      luck (posKeyOf v) < CACHE_SPAWN_PROBABILITY := by
  simp only [spawnSites, List.mem_flatMap, List.mem_filterMap, mem_cellRange]
  constructor
  · rintro ⟨x, hx, y, hy, hv⟩
    by_cases hl : luck (posKeyOf ⟨x, y⟩) < CACHE_SPAWN_PROBABILITY
    · simp [hl] at hv
      subst hv
      exact ⟨⟨hx.1, hx.2, hy.1, hy.2⟩, hl⟩
    · simp [hl] at hv
  · rintro ⟨⟨hx1, hx2, hy1, hy2⟩, hl⟩
    refine ⟨v.x, ⟨hx1, hx2⟩, v.y, ⟨hy1, hy2⟩, ?_⟩
    simp [hl]

/-! ### Claim theorems -/

/-- C1: `takeCoin` removes and returns the most recently deposited coin
when the inventory is non-empty (LIFO); otherwise, when mints remain, it
decrements `mints_remaining` and mints a coin with origin the cache's
position and `coin_number` the pre-call `last_coin`, incrementing
`last_coin`; otherwise it returns none and leaves the state unchanged.
Depositing A then B and taking twice yields B then A. -/
theorem takeCoin_behavior (c : CoinCache) :
    (∀ l a, c.inventory = l ++ [a] →
      CoinCache.takeCoin c = (some a, { c with inventory := l })) ∧
    (c.inventory = [] → 0 < c.mints_remaining →
      CoinCache.takeCoin c =
        (some ⟨c.position, c.last_coin⟩,
         { c with mints_remaining := c.mints_remaining - 1,
                  last_coin := c.last_coin + 1 })) ∧
    (c.inventory = [] → c.mints_remaining = 0 →
      CoinCache.takeCoin c = (none, c)) ∧
    (∀ a b,
      (CoinCache.takeCoin ((c.leaveCoin a).leaveCoin b)).1 = some b ∧
      (CoinCache.takeCoin
        (CoinCache.takeCoin ((c.leaveCoin a).leaveCoin b)).2).1 = some a) := by
  refine ⟨takeCoin_concat c, takeCoin_mint c, takeCoin_exhausted c, ?_⟩
  intro a b
  have h1 : ((c.leaveCoin a).leaveCoin b).inventory
      = (c.inventory ++ [a]) ++ [b] := rfl
  have t1 := takeCoin_concat _ (c.inventory ++ [a]) b h1
  constructor
  · rw [t1]
  · rw [t1]
    have t2 := takeCoin_concat
      { (c.leaveCoin a).leaveCoin b with inventory := c.inventory ++ [a] }
      c.inventory a rfl
    rw [t2]

/-- C1 witness: the three branches of `takeCoin` evaluated on concrete
caches, with each hypothesis discharged on a concrete input. -/
theorem takeCoin_behavior_witness :
    ((⟨[coinW, coinW2], 1, 2, ⟨5, 5⟩⟩ : CoinCache).inventory
        = [coinW] ++ [coinW2]) ∧
    CoinCache.takeCoin ⟨[coinW, coinW2], 1, 2, ⟨5, 5⟩⟩ =
      (some coinW2, ⟨[coinW], 1, 2, ⟨5, 5⟩⟩) ∧
    CoinCache.takeCoin ⟨[], 2, 5, ⟨0, 0⟩⟩ =
      (some ⟨⟨0, 0⟩, 2⟩, ⟨[], 3, 4, ⟨0, 0⟩⟩) ∧
    CoinCache.takeCoin ⟨[], 2, 0, ⟨0, 0⟩⟩ = (none, ⟨[], 2, 0, ⟨0, 0⟩⟩) := by
  refine ⟨rfl, ?_, ?_, ?_⟩
  · exact (takeCoin_behavior _).1 [coinW] coinW2 rfl
  · exact (takeCoin_behavior _).2.1 rfl (by decide)
  · exact (takeCoin_behavior _).2.2.1 rfl rfl

/-- C2: deserializing the serialization of any cache state reproduces
that state exactly (all four fields are captured losslessly). -/
theorem momento_roundtrip (c : CoinCache) :
    CoinCache.fromMomento (CoinCache.toMomento c) = some c :=
  fromMomento_toMomento c

/-- C8: depositing with an empty player inventory changes nothing: the
game state (player coins, momento store, storage) and the cache view are
returned untouched. -/
theorem deposit_empty_noop (g : GameState) (c : CoinCache)
    (h : g.playerCoins = []) : handleDeposit g c = (g, c) := by
  simp [handleDeposit, h]

/-- C8 witness: depositing on the sample empty-handed game state is the
identity. -/
theorem deposit_empty_noop_witness :
    gameW2.playerCoins = [] ∧ handleDeposit gameW2 cacheW = (gameW2, cacheW) :=
  ⟨rfl, deposit_empty_noop gameW2 cacheW rfl⟩

/-- C9: `resetGame` clears all four persisted entries exactly when the
user confirms, and is the identity on the whole game state when the
confirmation is declined. -/
theorem resetGame_spec (g : GameState) :
    (resetGame true g).storage.momentos = none ∧
    (resetGame true g).storage.playerCoins = none ∧
    (resetGame true g).storage.playerPath = none ∧
    (resetGame true g).storage.playerLocation = none ∧
    resetGame false g = g := by
  simp [resetGame, Storage.empty]

/-- C3: for a cell with no stored momento, `getOrCreateCache` seeds a
new cache with empty inventory, `last_coin = 0`,
`mints_remaining = ⌊hash(key) * 100⌋` and the cell position, stores its
momento under the key `"x,y"`, and returns the freshly deserialized view
of it; for a cell with an existing entry it returns a freshly
deserialized view of the stored momento. -/
theorem getOrCreateCache_spec (luck : LuckFn) (s : Store) (p : Vector2)
    (h0 : 0 ≤ luck (posKeyOf p)) :
    (storeGet s (posKeyOf p) = none →
      ∃ mints : Nat, (mints : Int) = ⌊luck (posKeyOf p) * 100⌋ ∧
        getOrCreateCache luck s p =
          (some ⟨[], 0, mints, p⟩,
           storeSet s (posKeyOf p)
             (CoinCache.toMomento ⟨[], 0, mints, p⟩))) ∧
    (∀ m, storeGet s (posKeyOf p) = some m →
      getOrCreateCache luck s p = (CoinCache.fromMomento m, s)) := by
  constructor
  · intro h
    refine ⟨Int.toNat ⌊luck (posKeyOf p) * 100⌋, ?_, ?_⟩
    · exact Int.toNat_of_nonneg
        (Int.floor_nonneg.mpr (mul_nonneg h0 (by norm_num)))
    · simpa [CoinCache.new] using getOrCreateCache_absent luck s p h
  · intro m hm
    exact getOrCreateCache_present luck s p m hm

/-- C3 witness: the sample luck function `1/20` on an empty store seeds
`mints_remaining = 5` at cell `(5,5)` and stores the momento. -/
theorem getOrCreateCache_spec_witness :
    (0 : ℚ) ≤ luckW (posKeyOf ⟨5, 5⟩) ∧
    storeGet ([] : Store) (posKeyOf ⟨5, 5⟩) = none ∧
    getOrCreateCache luckW ([] : Store) ⟨5, 5⟩ =
      (some ⟨[], 0, 5, ⟨5, 5⟩⟩,
       storeSet ([] : Store) (posKeyOf ⟨5, 5⟩)
         (CoinCache.toMomento ⟨[], 0, 5, ⟨5, 5⟩⟩)) := by
  refine ⟨by norm_num [luckW], rfl, ?_⟩
  obtain ⟨mints, hmints, heq⟩ :=
    (getOrCreateCache_spec luckW ([] : Store) ⟨5, 5⟩
      (by norm_num [luckW])).1 rfl
  have h5 : mints = 5 := by
    have h55 : (mints : Int) = 5 := by
      rw [hmints]
      norm_num [luckW]
    exact_mod_cast h55
  rw [heq, h5]

/-- C10: for a cell whose key is already present, `getOrCreateCache`
leaves the store unchanged, returns the deserialization of the stored
momento (a fresh value, not an alias of store contents), and a second
call with no intervening write-back returns the identical result. -/
theorem getOrCreateCache_existing_frame (luck : LuckFn) (s : Store)
    (p : Vector2) (m : JsonVal) (h : storeGet s (posKeyOf p) = some m) :
    (getOrCreateCache luck s p).2 = s ∧
    (getOrCreateCache luck s p).1 = CoinCache.fromMomento m ∧
    getOrCreateCache luck (getOrCreateCache luck s p).2 p
      = getOrCreateCache luck s p := by
  have he := getOrCreateCache_present luck s p m h
  refine ⟨by rw [he], by rw [he], ?_⟩
  rw [he]
  exact he

/-- C10 witness: a one-entry store is left unchanged and yields the same
fresh view twice. -/
theorem getOrCreateCache_existing_frame_witness :
    storeGet [(posKeyOf ⟨5, 5⟩, CoinCache.toMomento cacheW)]
        (posKeyOf ⟨5, 5⟩) = some (CoinCache.toMomento cacheW) ∧
    (getOrCreateCache luckW
        [(posKeyOf ⟨5, 5⟩, CoinCache.toMomento cacheW)] ⟨5, 5⟩).2
      = [(posKeyOf ⟨5, 5⟩, CoinCache.toMomento cacheW)] ∧
    (getOrCreateCache luckW
        [(posKeyOf ⟨5, 5⟩, CoinCache.toMomento cacheW)] ⟨5, 5⟩).1
      = CoinCache.fromMomento (CoinCache.toMomento cacheW) := by
  have h : storeGet [(posKeyOf ⟨5, 5⟩, CoinCache.toMomento cacheW)]
      (posKeyOf ⟨5, 5⟩) = some (CoinCache.toMomento cacheW) := by
    simp [storeGet]
  obtain ⟨h1, h2, -⟩ := getOrCreateCache_existing_frame luckW
    [(posKeyOf ⟨5, 5⟩, CoinCache.toMomento cacheW)] ⟨5, 5⟩
    (CoinCache.toMomento cacheW) h
  exact ⟨h, h1, h2⟩

/-- C4: the generator's spawn sites are exactly the cells of the
`2 * NEIGHBORHOOD_SIZE`-wide square around the player's cell whose key
hashes below `CACHE_SPAWN_PROBABILITY`, and re-running the generator on
the store it produced (same position, no other mutation) yields the
identical site list. -/
theorem generateAroundPlayer_spec (luck : LuckFn) (s : Store)
    (position : ℚ × ℚ) :
    (∀ v : Vector2, v ∈ (generateAroundPlayer luck s position).1 ↔
      ((toMapCoordinates position).x - NEIGHBORHOOD_SIZE ≤ v.x ∧
       v.x < (toMapCoordinates position).x + NEIGHBORHOOD_SIZE ∧
       (toMapCoordinates position).y - NEIGHBORHOOD_SIZE ≤ v.y ∧
       v.y < (toMapCoordinates position).y + NEIGHBORHOOD_SIZE) ∧
      luck (posKeyOf v) < CACHE_SPAWN_PROBABILITY) ∧
    (generateAroundPlayer luck (generateAroundPlayer luck s position).2
        position).1 = (generateAroundPlayer luck s position).1 := by
  exact ⟨fun v => mem_spawnSites luck position v, rfl⟩

/-- C5: across any operation sequence `mints_remaining` never increases
and `last_coin` never decreases; `N` mint-sourced takes from an empty
inventory decrease `mints_remaining` and increase `last_coin` by exactly
`N`; the number of coins ever minted is at most the initial allowance. -/
theorem cache_counter_invariants (c : CoinCache) (ops : List CacheOp)
    (N : Nat) :
    (runOps c ops).mints_remaining ≤ c.mints_remaining ∧
    c.last_coin ≤ (runOps c ops).last_coin ∧
    (c.inventory = [] → N ≤ c.mints_remaining →
      runOps c (List.replicate N .take) =
        { c with mints_remaining := c.mints_remaining - N,
                 last_coin := c.last_coin + N }) ∧
    mintedCount c ops ≤ c.mints_remaining :=
  ⟨runOps_mints_le c ops, runOps_last_le c ops,
   fun h hN => runOps_replicate_take c N h hN,
   by have := mintedCount_add_mints c ops; omega⟩

/-- C5 witness: the invariants evaluated on a concrete cache and
operation sequence, with the mint-count hypotheses discharged
concretely. -/
theorem cache_counter_invariants_witness :
    cacheW2.inventory = [] ∧ 3 ≤ cacheW2.mints_remaining ∧
    (runOps cacheW2 opsW).mints_remaining ≤ cacheW2.mints_remaining ∧
    cacheW2.last_coin ≤ (runOps cacheW2 opsW).last_coin ∧
    runOps cacheW2 (List.replicate 3 .take) =
      { cacheW2 with mints_remaining := cacheW2.mints_remaining - 3,
                     last_coin := cacheW2.last_coin + 3 } ∧
    mintedCount cacheW2 opsW ≤ cacheW2.mints_remaining := by
  obtain ⟨h1, h2, h3, h4⟩ := cache_counter_invariants cacheW2 opsW 3
  exact ⟨rfl, by decide, h1, h2, h3 rfl (by decide), h4⟩

lemma takeCoin_position (c : CoinCache) :
    (CoinCache.takeCoin c).2.position = c.position := by
  simp only [CoinCache.takeCoin]
  cases h : c.inventory.getLast? with
  | some coin => rfl
  | none => by_cases hm : 0 < c.mints_remaining <;> simp [hm]

lemma getLast_not_mem_dropLast (l : List Coin) (a : Coin) (hl : l.Nodup)
    (h : l.getLast? = some a) : a ∉ l.dropLast := by
  have hdec : l.dropLast ++ [a] = l := List.dropLast_append_getLast? a h
  rw [← hdec] at hl
  intro hmem
  rcases List.nodup_append.mp hl with ⟨-, -, hdisj⟩
  exact hdisj hmem (by simp)

/-- C6: after a collect that yields a coin, and after a deposit from a
non-empty player inventory, the momento store maps the cache's cell key
to the serialization of the updated cache, and all four persisted
entries are flushed (storage mirrors the live state). -/
theorem write_through (g : GameState) (c : CoinCache) :
    ((handleCollect g c).2.2.isSome →
      storeGet (handleCollect g c).1.momentos (posKeyOf c.position)
          = some (CoinCache.toMomento (handleCollect g c).2.1) ∧
      (handleCollect g c).1.storage.momentos
          = some (handleCollect g c).1.momentos ∧
      (handleCollect g c).1.storage.playerCoins
          = some (handleCollect g c).1.playerCoins ∧
      (handleCollect g c).1.storage.playerPath
          = some (handleCollect g c).1.playerPath ∧
      (handleCollect g c).1.storage.playerLocation
          = some (handleCollect g c).1.playerLocation) ∧
    (g.playerCoins ≠ [] →
      storeGet (handleDeposit g c).1.momentos (posKeyOf c.position)
          = some (CoinCache.toMomento (handleDeposit g c).2) ∧
      (handleDeposit g c).1.storage.momentos
          = some (handleDeposit g c).1.momentos ∧
      (handleDeposit g c).1.storage.playerCoins
          = some (handleDeposit g c).1.playerCoins ∧
      (handleDeposit g c).1.storage.playerPath
          = some (handleDeposit g c).1.playerPath ∧
      (handleDeposit g c).1.storage.playerLocation
          = some (handleDeposit g c).1.playerLocation) := by
  constructor
  · intro hsome
    rcases htc : CoinCache.takeCoin c with ⟨o, c2⟩
    cases o with
    | none => simp [handleCollect, htc] at hsome
    | some coin =>
      have hpos : c2.position = c.position := by
        have hp := takeCoin_position c
        rw [htc] at hp
        exact hp
      simp [handleCollect, htc, saveGame, hpos, storeGet_set_self]
  · intro hne
    rcases hl : g.playerCoins.getLast? with - | coin
    · rw [List.getLast?_eq_none_iff] at hl
      exact absurd hl hne
    · simp [handleDeposit, hl, saveGame, CoinCache.leaveCoin,
        storeGet_set_self]

/-- C6 witness: collect and deposit on concrete states write the
updated momento through to the store and flush storage. -/
theorem write_through_witness :
    gameW.playerCoins ≠ [] ∧
    (handleCollect gameW cacheW).2.2.isSome = true ∧
    storeGet (handleCollect gameW cacheW).1.momentos
        (posKeyOf cacheW.position)
      = some (CoinCache.toMomento (handleCollect gameW cacheW).2.1) ∧
    (handleCollect gameW cacheW).1.storage.momentos
      = some (handleCollect gameW cacheW).1.momentos ∧
    storeGet (handleDeposit gameW cacheW).1.momentos
        (posKeyOf cacheW.position)
      = some (CoinCache.toMomento (handleDeposit gameW cacheW).2) ∧
    (handleDeposit gameW cacheW).1.storage.playerCoins
      = some (handleDeposit gameW cacheW).1.playerCoins := by
  obtain ⟨hc, hd⟩ := write_through gameW cacheW
  have hsome : (handleCollect gameW cacheW).2.2.isSome = true := rfl
  have hne : gameW.playerCoins ≠ [] := by decide
  obtain ⟨a1, a2, -, -, -⟩ := hc hsome
  obtain ⟨b1, -, b3, -, -⟩ := hd hne
  exact ⟨hne, hsome, a1, a2, b1, b3⟩

/-- C7: coin ownership transfers one coin at a time between a cache's
inventory and the player inventory.  A successful collect appends the
coin to the player inventory (it becomes the last element) and, for a
duplicate-free inventory, the coin is gone from the cache view; a
deposit pops the most recently collected coin and appends it to the
cache inventory; both preserve the combined coin count
(inventory + remaining mint allowance + player coins). -/
theorem coin_ownership (g : GameState) (c : CoinCache)
    (hcn : c.inventory.Nodup) :
    (∀ coin, (handleCollect g c).2.2 = some coin →
      (handleCollect g c).1.playerCoins = g.playerCoins ++ [coin] ∧
      (handleCollect g c).1.playerCoins.getLast? = some coin ∧
      coin ∉ (handleCollect g c).2.1.inventory ∧
      (handleCollect g c).2.1.inventory.length
        + (handleCollect g c).2.1.mints_remaining
        + (handleCollect g c).1.playerCoins.length
        = c.inventory.length + c.mints_remaining + g.playerCoins.length) ∧
    (∀ coin, g.playerCoins.getLast? = some coin →
      (handleDeposit g c).1.playerCoins = g.playerCoins.dropLast ∧
      (handleDeposit g c).2.inventory = c.inventory ++ [coin] ∧
      (handleDeposit g c).2.inventory.length
        + (handleDeposit g c).2.mints_remaining
        + (handleDeposit g c).1.playerCoins.length
        = c.inventory.length + c.mints_remaining + g.playerCoins.length) := by
  constructor
  · intro coin hcoin
    cases hgl : c.inventory.getLast? with
    | some a =>
      have htc : CoinCache.takeCoin c =
          (some a, { c with inventory := c.inventory.dropLast }) := by
        simp [CoinCache.takeCoin, hgl]
      have hca : coin = a := by
        simp [handleCollect, htc] at hcoin
        exact hcoin.symm
      subst hca
      have hnil : c.inventory ≠ [] := by
        intro hn
        rw [hn] at hgl
        simp at hgl
      have hlen : 0 < c.inventory.length := List.length_pos.mpr hnil
      have hmem : coin ∉ c.inventory.dropLast :=
        getLast_not_mem_dropLast c.inventory coin hcn hgl
      simp [handleCollect, htc, saveGame, List.getLast?_concat, hmem,
        List.length_dropLast]
      omega
    | none =>
      have hinv : c.inventory = [] := by
        rw [← List.getLast?_eq_none_iff]
        exact hgl
      by_cases hm : 0 < c.mints_remaining
      · have htc : CoinCache.takeCoin c =
            (some ⟨c.position, c.last_coin⟩,
             { c with mints_remaining := c.mints_remaining - 1,
                      last_coin := c.last_coin + 1 }) :=
          takeCoin_mint c hinv hm
        have hca : coin = ⟨c.position, c.last_coin⟩ := by
          simp [handleCollect, htc] at hcoin
          exact hcoin.symm
        subst hca
        simp [handleCollect, htc, saveGame, List.getLast?_concat, hinv]
        omega
      · have htc : CoinCache.takeCoin c = (none, c) :=
          takeCoin_exhausted c hinv (by omega)
        simp [handleCollect, htc] at hcoin
  · intro coin hl
    have hpc : g.playerCoins ≠ [] := by
      intro hn
      rw [hn] at hl
      simp at hl
    have hlen : 0 < g.playerCoins.length := List.length_pos.mpr hpc
    simp [handleDeposit, hl, saveGame, CoinCache.leaveCoin,
      List.length_dropLast]
    omega

/-- C7 witness: collect then the counting identities on concrete
states, with the Nodup and success hypotheses discharged concretely. -/
theorem coin_ownership_witness :
    cacheW.inventory.Nodup ∧
    (handleCollect gameW cacheW).2.2 = some coinW ∧
    (handleCollect gameW cacheW).1.playerCoins
      = gameW.playerCoins ++ [coinW] ∧
    coinW ∉ (handleCollect gameW cacheW).2.1.inventory ∧
    gameW.playerCoins.getLast? = some coinW2 ∧
    (handleDeposit gameW cacheW).2.inventory
      = cacheW.inventory ++ [coinW2] ∧
    (handleDeposit gameW cacheW).2.inventory.length
      + (handleDeposit gameW cacheW).2.mints_remaining
      + (handleDeposit gameW cacheW).1.playerCoins.length
      = cacheW.inventory.length + cacheW.mints_remaining
        + gameW.playerCoins.length := by
  have hcn : cacheW.inventory.Nodup := by decide
  obtain ⟨hc, hd⟩ := coin_ownership gameW cacheW hcn
  obtain ⟨a1, -, a3, -⟩ := hc coinW rfl
  obtain ⟨-, b2, b3⟩ := hd coinW2 rfl
  exact ⟨hcn, rfl, a1, a3, rfl, b2, b3⟩
